import Mathlib

/-
Verification of the sitemap-generator crawler (src/s.py) against its
natural-language specification.

Shallow embedding conventions:
* Python strings are Lean `String`s; character-level reasoning is done on
  `String.data : List Char`.
* `urllib.parse.urlparse`/`urlsplit` is modelled by the component
  extractors `schemeOf`, `netlocOf`, `pathOf`, `queryOf` below, following
  CPython's urlsplit: optional scheme (letters/digits/'+'/'-'/'.' before
  the first ':', lower-cased), optional netloc after "//" (delimited by
  '/', '?', '#'), then fragment split at the first '#', then query split
  at the first '?'.
* `urllib.parse.urldefrag` is modelled faithfully to the CPython source:
  when the URL contains a '#' it is split with urlsplit and re-assembled
  with urlunsplit minus the fragment (`urltruncAtHash` below) — which
  lower-cases the scheme and drops the '?' of an empty query — and
  otherwise it is returned unchanged.  Not modelled are the behaviours of
  urlsplit that rewrite or reject exotic inputs before parsing: the
  WHATWG strip of leading C0-control/space characters and the removal of
  tab/CR/LF, and the ValueError raised for bracketed or non-ASCII
  netlocs.  Theorems whose inputs can reach urlsplit therefore carry the
  hypothesis `urlOk`, which confines them to inputs where CPython
  performs no such rewrite and raises no exception.
* The network and HTML parsing are external collaborators: a crawl run is
  parameterised by `pages : String -> Option (List String)`, where
  `pages u = none` models a failed fetch (exception in `session.get`/
  `raise_for_status`/BeautifulSoup) and `pages u = some hrefs` models a
  successful fetch whose anchor tags resolve (after `urljoin`) to the
  absolute URLs `hrefs`, in document order.
* Python `set` iteration order is unspecified; the link set built by
  `get_links_from_page` is modelled as a duplicate-free list in first
  insertion order (one admissible linearization).
* `datetime.now().strftime(...)` is modelled by a fixed parameter `today`.
* The recursion of `crawl` is modelled with an explicit recursion-depth
  budget (`fuel`); `crawl` returns `none` exactly when the nesting depth
  of recursive calls would exceed the budget, and `crawlRun` supplies the
  budget `max_pages + 1`, which is proved sufficient (termination).
-/

namespace SitemapGen

/-- Characters allowed in a URL scheme, per CPython urllib scheme_chars. -/
def schemeChar (c : Char) : Bool :=
  c.isAlpha || c.isDigit || c == '+' || c == '-' || c == '.'

/-- Continuation predicate for fragment stripping: true away from '#'. -/
def notHash (c : Char) : Bool := c != '#'

/-- Continuation predicate for scheme scanning: true away from ':'. -/
def notColon (c : Char) : Bool := c != ':'

/-- Continuation predicate for query splitting: true away from '?'. -/
def notQmark (c : Char) : Bool := c != '?'

/-- Continuation predicate for netloc scanning: netloc is delimited by
'/', '?' or '#' (CPython _splitnetloc). -/
def netChar (c : Char) : Bool := c != '/' && c != '?' && c != '#'

/-- The prefix of a URL before its first '#'.  This is not the model of
`urldefrag` (see `urltruncAtHash` below); it is the key technical device
of the development: the urlsplit component extractors depend only on
this prefix (lemmas `schemeOf_trunc` … `queryOf_trunc`). -/
def truncAtHash (l : List Char) : List Char := l.takeWhile notHash

/-- Model of the trailing-slash strip in `normalize_url`:
`if url.endswith('/'): url = url[:-1]`. -/
def stripSlashChars (l : List Char) : List Char :=
  if l.getLast? = some '/' then l.dropLast else l

/-- CPython urlsplit scheme extraction: if the text before the first ':'
is nonempty, starts with an ASCII letter and consists of scheme
characters, it is the scheme (lower-cased) and the remainder follows the
':'; otherwise there is no scheme. Returns (scheme, remainder). -/
def splitScheme (l : List Char) : List Char × List Char :=
  let pre := l.takeWhile notColon
  if pre.length < l.length ∧ pre ≠ [] ∧ pre.all schemeChar = true ∧
      (pre.headD 'a').isAlpha = true then
    (pre.map Char.toLower, l.drop (pre.length + 1))
  else
    ([], l)

/-- The scheme component of a URL (as in `urlparse(url).scheme`). -/
def schemeOf (l : List Char) : List Char := (splitScheme l).1

/-- The URL text after the scheme (or the whole URL if there is none). -/
def afterScheme (l : List Char) : List Char := (splitScheme l).2

/-- The netloc component of a URL (as in `urlparse(url).netloc`): present
only when the text after the scheme starts with "//". -/
def netlocOf (l : List Char) : List Char :=
  match afterScheme l with
  | c1 :: c2 :: rest =>
    if c1 = '/' ∧ c2 = '/' then rest.takeWhile netChar else []
  | _ => []

/-- The URL text after the netloc (path + query + fragment). -/
def afterNetloc (l : List Char) : List Char :=
  match afterScheme l with
  | c1 :: c2 :: rest =>
    if c1 = '/' ∧ c2 = '/' then rest.dropWhile netChar else c1 :: c2 :: rest
  | r => r

/-- Path and query of the URL: the text after the netloc, with the
fragment removed (urlsplit strips the fragment before the query split). -/
def restNoFrag (l : List Char) : List Char :=
  (afterNetloc l).takeWhile notHash

/-- The fragment part of the URL, including its leading '#'
(empty iff the URL has no fragment). -/
def fragPartOf (l : List Char) : List Char :=
  (afterNetloc l).dropWhile notHash

/-- The path component of a URL (as in `urlparse(url).path`). -/
def pathOf (l : List Char) : List Char :=
  (restNoFrag l).takeWhile notQmark

/-- The query component of a URL (as in `urlparse(url).query`). -/
def queryOf (l : List Char) : List Char :=
  (restNoFrag l).drop ((pathOf l).length + 1)

/-- CPython urlunsplit, restricted to an empty fragment, built from its
three string-assembly steps. Step 1: re-attach the netloc (with a '/'
inserted before a relative path) when there is a netloc or the path
starts with "//". -/
def urlAddNetloc (n p : List Char) : List Char :=
  if n ≠ [] ∨ (p ≠ [] ∧ p.take 2 = ['/', '/']) then
    '/' :: '/' :: (n ++ (if p ≠ [] ∧ p.take 1 ≠ ['/'] then '/' :: p else p))
  else p

/-- CPython urlunsplit step 2: re-attach a nonempty scheme. -/
def urlAddScheme (s u : List Char) : List Char :=
  if s ≠ [] then s ++ ':' :: u else u

/-- CPython urlunsplit step 3: re-attach a nonempty query. -/
def urlAddQuery (u q : List Char) : List Char :=
  if q ≠ [] then u ++ '?' :: q else u

/-- `urlunsplit((scheme, netloc, path, query, ''))`: reassembly of the
URL from its components with an empty fragment. -/
def urlunsplitNoFrag (s n p q : List Char) : List Char :=
  urlAddQuery (urlAddScheme s (urlAddNetloc n p)) q

/-- Model of CPython `urldefrag`: if the URL contains a '#', split it
with urlsplit and reassemble it without the fragment (this lower-cases
the scheme and drops the '?' of an empty query); otherwise return it
unchanged. -/
def urldefragChars (l : List Char) : List Char :=
  if '#' ∈ l then
    urlunsplitNoFrag (schemeOf l) (netlocOf l) (pathOf l) (queryOf l)
  else l

/-- Embedding of `SitemapGenerator.normalize_url` (src/s.py lines 21-28):
remove the fragment via `urldefrag`, then remove one trailing '/' if
present. -/
def normalize_url (u : String) : String :=
  String.mk (stripSlashChars (urldefragChars u.data))

/-- Inputs on which CPython's urlsplit performs no pre-parse rewriting
and raises no exception: no tab/CR/LF anywhere, no leading
C0-control/space character, and a plain-ASCII netloc without brackets
(bracketed hosts are IPv6-validated and non-ASCII netlocs NFKC-validated
by CPython, with a ValueError on failure). -/
def urlOk (l : List Char) : Prop :=
  (∀ c ∈ l.take 1, 32 < c.toNat) ∧
  '\t' ∉ l ∧ '\r' ∉ l ∧ '\n' ∉ l ∧
  ∀ c ∈ netlocOf l, c.toNat < 128 ∧ c ≠ '[' ∧ c ≠ ']'

instance (l : List Char) : Decidable (urlOk l) := by
  unfold urlOk
  infer_instance

/-- The excluded file-name suffixes of `is_valid_url`, as character
lists. -/
def excluded : List (List Char) :=
  [".jpg".data, ".jpeg".data, ".png".data, ".gif".data, ".pdf".data,
   ".zip".data]

/-- Model of `url.endswith(('.jpg', '.jpeg', '.png', '.gif', '.pdf',
'.zip'))`: a case-sensitive suffix test on the whole URL string. -/
def endsWithExcluded (l : List Char) : Bool :=
  excluded.any (fun s => s.isSuffixOf l)

/-- Embedding of `SitemapGenerator.is_valid_url` (src/s.py lines 30-37):
the parsed netloc equals the target domain, the parsed scheme is http or
https, and the URL string does not end with an excluded suffix. -/
def is_valid_url (domain : String) (url : String) : Bool :=
  (netlocOf url.data == domain.data) &&
  (schemeOf url.data == "http".data || schemeOf url.data == "https".data) &&
  !(endsWithExcluded url.data)

/-- One entry of `self.sitemap_urls`: the dict
`{'loc': ..., 'lastmod': ..., 'priority': '0.8'}`. -/
structure SitemapRecord where
  loc : String
  lastmod : String
  priority : String
deriving Repr, DecidableEq

/-- The mutable state of a `SitemapGenerator` during `crawl`, plus an
instrumentation field `fetchLog` recording, in order, every URL on which
`get_links_from_page` issues its HTTP fetch. -/
structure CrawlState where
  visited_urls : List String
  sitemap_urls : List SitemapRecord
  fetchLog : List String
deriving Repr, DecidableEq

/-- Embedding of `SitemapGenerator.get_links_from_page`
(src/s.py lines 39-57): on fetch failure the exception handler returns
the empty set; on success each anchor's absolute URL is normalized and
added to the link set when it passes `is_valid_url`. -/
def get_links_from_page (pages : String → Option (List String))
    (domain : String) (url : String) : List String :=
  match pages url with
  | none => []
  | some anchors =>
    anchors.foldl (fun links absolute_url =>
      let normalized_url := normalize_url absolute_url
      if is_valid_url domain normalized_url then
        if normalized_url ∈ links then links else links ++ [normalized_url]
      else links) []

/-- The `for link in links` loop body of `crawl` (src/s.py lines 82-85),
abstracted over the recursive call `f`: links already visited are
skipped, the others are crawled in turn. -/
def crawlList (f : String → CrawlState → Option CrawlState) :
    List String → CrawlState → Option CrawlState
  | [], st => some st
  | link :: rest, st =>
    if link ∈ st.visited_urls then crawlList f rest st
    else
      match f link st with
      | none => none
      | some st2 => crawlList f rest st2

/-- Embedding of `SitemapGenerator.crawl` (src/s.py lines 59-85).
`fuel` bounds the nesting depth of recursive calls; a result `none`
means the depth budget was exhausted (the Python original would still be
recursing), and `some st` means the call returned with final state `st`.
Steps, in source order: budget check against the visited set, URL
normalization, visited check, visited insertion and record append, fetch
and link extraction (logged in `fetchLog`), loop over extracted links. -/
def crawl (pages : String → Option (List String)) (domain today : String)
    (max_pages : Nat) : Nat → String → CrawlState → Option CrawlState
  | 0, _, _ => none
  | fuel + 1, url, st =>
    if max_pages ≤ st.visited_urls.length then some st
    else
      let normalized_url := normalize_url url
      if normalized_url ∈ st.visited_urls then some st
      else
        let st2 : CrawlState :=
          { visited_urls := normalized_url :: st.visited_urls
            sitemap_urls := st.sitemap_urls ++ [⟨normalized_url, today, "0.8"⟩]
            fetchLog := st.fetchLog ++ [normalized_url] }
        crawlList (fun l s => crawl pages domain today max_pages fuel l s)
          (get_links_from_page pages domain normalized_url) st2

/-- The state of a fresh `SitemapGenerator`: empty visited set, no
records, no fetches. -/
def initState : CrawlState := ⟨[], [], []⟩

/-- A whole crawl run: `generator.crawl(seed, max_pages)` starting from a
fresh generator, with depth budget `max_pages + 1` (proved sufficient
below). -/
def crawlRun (pages : String → Option (List String)) (domain today : String)
    (max_pages : Nat) (seed : String) : Option CrawlState :=
  crawl pages domain today max_pages (max_pages + 1) seed initState

/-- The crawl invariant: the visited set has no duplicates, the sitemap
records are exactly the visited URLs in visit order (with the fixed date
and priority), the fetch log is exactly the visited URLs in visit order,
and the budget is respected. -/
def Inv (today : String) (max_pages : Nat) (st : CrawlState) : Prop :=
  st.visited_urls.Nodup ∧
  st.sitemap_urls =
    st.visited_urls.reverse.map (fun n => ⟨n, today, "0.8"⟩) ∧
  st.fetchLog = st.visited_urls.reverse ∧
  st.visited_urls.length ≤ max_pages

/-- Generic soundness of the link loop: if the recursive call preserves a
state predicate and only grows the visited set and record list, so does
the whole loop. -/
theorem crawlList_gen (f : String → CrawlState → Option CrawlState)
    (C : CrawlState → Prop)
    (hf : ∀ l st, C st → ∃ st2, f l st = some st2 ∧ C st2 ∧
      (∃ pre, st2.visited_urls = pre ++ st.visited_urls) ∧
      (∃ post, st2.sitemap_urls = st.sitemap_urls ++ post)) :
    ∀ ls st, C st → ∃ st2, crawlList f ls st = some st2 ∧ C st2 ∧
      (∃ pre, st2.visited_urls = pre ++ st.visited_urls) ∧
      (∃ post, st2.sitemap_urls = st.sitemap_urls ++ post) := by
  intro ls
  induction ls with
  | nil =>
    intro st h
    exact ⟨st, rfl, h, ⟨[], rfl⟩, ⟨[], by simp⟩⟩
  | cons l rest ih =>
    intro st h
    by_cases hm : l ∈ st.visited_urls
    · simpa [crawlList, hm] using ih st h
    · obtain ⟨st2, hf2, hc2, ⟨p1, hp1⟩, ⟨q1, hq1⟩⟩ := hf l st h
      obtain ⟨st3, h3, hc3, ⟨p2, hp2⟩, ⟨q2, hq2⟩⟩ := ih st2 hc2
      refine ⟨st3, ?_, hc3,
        ⟨p2 ++ p1, by rw [hp2, hp1, List.append_assoc]⟩,
        ⟨q1 ++ q2, by rw [hq2, hq1, List.append_assoc]⟩⟩
      simp [crawlList, hm, hf2, h3]

/-- Soundness of `crawl`: with enough fuel relative to the remaining
budget, the call returns, preserves the invariant, and only grows the
visited set and record list. -/
theorem crawl_sound (pages : String → Option (List String))
    (domain today : String) (max_pages : Nat) :
    ∀ fuel url st, Inv today max_pages st →
      max_pages - st.visited_urls.length < fuel →
      ∃ st2, crawl pages domain today max_pages fuel url st = some st2 ∧
        Inv today max_pages st2 ∧
        (∃ pre, st2.visited_urls = pre ++ st.visited_urls) ∧
        (∃ post, st2.sitemap_urls = st.sitemap_urls ++ post) := by
  intro fuel
  induction fuel with
  | zero => intro url st _ hlt; omega
  | succ fuel ih =>
    intro url st hinv hlt
    by_cases hb : max_pages ≤ st.visited_urls.length
    · exact ⟨st, by simp [crawl, hb], hinv, ⟨[], rfl⟩, ⟨[], by simp⟩⟩
    · by_cases hm : normalize_url url ∈ st.visited_urls
      · exact ⟨st, by simp [crawl, hb, hm], hinv, ⟨[], rfl⟩, ⟨[], by simp⟩⟩
      · obtain ⟨hnd, hrec, hlog, hlen⟩ := hinv
        have hinv2 : Inv today max_pages
            ⟨normalize_url url :: st.visited_urls,
             st.sitemap_urls ++ [⟨normalize_url url, today, "0.8"⟩],
             st.fetchLog ++ [normalize_url url]⟩ := by
          refine ⟨List.nodup_cons.mpr ⟨hm, hnd⟩, ?_, ?_, ?_⟩
          · simp [hrec, List.reverse_cons]
          · simp [hlog, List.reverse_cons]
          · simp only [List.length_cons]
            omega
        have hstep := crawlList_gen
          (fun l s => crawl pages domain today max_pages fuel l s)
          (fun s => Inv today max_pages s ∧
            max_pages - s.visited_urls.length < fuel)
          (by
            rintro l s ⟨hi, hb2⟩
            obtain ⟨t, ht, hit, ⟨pre, hpre⟩, hpost⟩ := ih l s hi hb2
            refine ⟨t, ht, ⟨hit, ?_⟩, ⟨pre, hpre⟩, hpost⟩
            have : s.visited_urls.length ≤ t.visited_urls.length := by
              rw [hpre]; simp
            omega)
          (get_links_from_page pages domain (normalize_url url))
          ⟨normalize_url url :: st.visited_urls,
           st.sitemap_urls ++ [⟨normalize_url url, today, "0.8"⟩],
           st.fetchLog ++ [normalize_url url]⟩
          ⟨hinv2, by simp only [List.length_cons]; omega⟩
        obtain ⟨st3, h3, ⟨hi3, _⟩, ⟨pre, hpre⟩, ⟨post, hpost⟩⟩ := hstep
        refine ⟨st3, ?_, hi3,
          ⟨pre ++ [normalize_url url], by simpa [List.append_assoc] using hpre⟩,
          ⟨⟨normalize_url url, today, "0.8"⟩ :: post, by
            simpa [List.append_assoc] using hpost⟩⟩
        simpa [crawl, hb, hm] using h3

/-- A whole run from the fresh state always returns and satisfies the
invariant. -/
theorem crawlRun_sound (pages : String → Option (List String))
    (domain today : String) (max_pages : Nat) (seed : String) :
    ∃ st, crawlRun pages domain today max_pages seed = some st ∧
      Inv today max_pages st := by
  have h := crawl_sound pages domain today max_pages (max_pages + 1) seed
    initState ⟨List.nodup_nil, by simp [initState], by simp [initState],
      by simp [initState]⟩ (by simp [initState])
  obtain ⟨st, hst, hinv, _, _⟩ := h
  exact ⟨st, hst, hinv⟩

/-- Once the budget is full, the link loop performs no work: every
recursive call returns immediately (with positive fuel). -/
theorem crawlList_budget (pages : String → Option (List String))
    (domain today : String) (max_pages fuel : Nat) :
    ∀ ls st, max_pages ≤ st.visited_urls.length →
      crawlList (fun l s => crawl pages domain today max_pages (fuel + 1) l s)
        ls st = some st := by
  intro ls st hb
  induction ls with
  | nil => rfl
  | cons l rest ih =>
    by_cases hm : l ∈ st.visited_urls
    · simpa [crawlList, hm] using ih
    · simpa [crawlList, hm, crawl, hb] using ih

/-- One unfolding of `crawl` on an unvisited URL within budget: the URL
is visited, recorded and fetched, then the link loop runs. -/
theorem crawl_step (pages : String → Option (List String))
    (domain today : String) (max_pages fuel : Nat) (url : String)
    (st : CrawlState) (hb : ¬ max_pages ≤ st.visited_urls.length)
    (hm : normalize_url url ∉ st.visited_urls) :
    crawl pages domain today max_pages (fuel + 1) url st =
      crawlList (fun l s => crawl pages domain today max_pages fuel l s)
        (get_links_from_page pages domain (normalize_url url))
        ⟨normalize_url url :: st.visited_urls,
         st.sitemap_urls ++ [⟨normalize_url url, today, "0.8"⟩],
         st.fetchLog ++ [normalize_url url]⟩ := by
  simp [crawl, hb, hm]

/-- Claim C1: for every seed URL and every maxPages value, the crawl
produces at most maxPages sitemap records: after the run,
`len(records) <= maxPages`, and no new fetch is issued once the visited
count has reached maxPages — every fetch is of a page that was admitted
to the visited set under the budget (the fetch log equals the visited
set in visit order and has length at most maxPages), so no page beyond
the maxPages visited ones is ever fetched. -/
theorem c1_crawl_budget (pages : String → Option (List String))
    (domain today : String) (max_pages : Nat) (seed : String) :
    ∃ st, crawlRun pages domain today max_pages seed = some st ∧
      st.sitemap_urls.length ≤ max_pages ∧
      st.visited_urls.length ≤ max_pages ∧
      st.fetchLog = st.visited_urls.reverse ∧
      st.fetchLog.length ≤ max_pages := by
  obtain ⟨st, hst, hnd, hrec, hlog, hlen⟩ :=
    crawlRun_sound pages domain today max_pages seed
  refine ⟨st, hst, ?_, hlen, hlog, ?_⟩
  · rw [hrec]; simpa using hlen
  · rw [hlog]; simpa using hlen

/-- Claim C2: the accumulated sitemap records of a crawl run have
pairwise-distinct location values, and no URL in the visited set is ever
re-inserted (the visited list is duplicate-free). -/
theorem c2_no_duplicate_records (pages : String → Option (List String))
    (domain today : String) (max_pages : Nat) (seed : String) :
    ∃ st, crawlRun pages domain today max_pages seed = some st ∧
      (st.sitemap_urls.map SitemapRecord.loc).Nodup ∧
      st.visited_urls.Nodup := by
  obtain ⟨st, hst, hnd, hrec, hlog, hlen⟩ :=
    crawlRun_sound pages domain today max_pages seed
  refine ⟨st, hst, ?_, hnd⟩
  rw [hrec, List.map_map]
  have hcomp : (SitemapRecord.loc ∘ fun n =>
      ({ loc := n, lastmod := today, priority := "0.8" } : SitemapRecord)) =
      id := rfl
  rw [hcomp, List.map_id]
  exact List.nodup_reverse.mpr hnd

/-- Claim C3: on every link graph (the page environment is an arbitrary
function, so cycles — a page linking to itself or an ancestor — are
allowed), the crawl run returns (`some`): the recursion-depth budget
`max_pages + 1` is never exhausted, so there is no unbounded recursion;
moreover no URL is visited twice and no URL is fetched twice. -/
theorem c3_crawl_terminates (pages : String → Option (List String))
    (domain today : String) (max_pages : Nat) (seed : String) :
    ∃ st, crawlRun pages domain today max_pages seed = some st ∧
      st.visited_urls.Nodup ∧
      st.fetchLog.Nodup := by
  obtain ⟨st, hst, hnd, hrec, hlog, hlen⟩ :=
    crawlRun_sound pages domain today max_pages seed
  exact ⟨st, hst, hnd, by rw [hlog]; exact List.nodup_reverse.mpr hnd⟩

/-- Claim C7: a failed fetch is absorbed locally: the failing page
contributes no links (`get_links_from_page` returns the empty set), and
when the fetch of the seed itself fails the crawl emits exactly one
record — the seed, which was recorded and marked visited before the
fetch was attempted — and nothing else. -/
theorem c7_fetch_failure_absorbed (pages : String → Option (List String))
    (domain today : String) (max_pages : Nat) (seed : String)
    (hmax : 1 ≤ max_pages)
    (hfail : pages (normalize_url seed) = none) :
    get_links_from_page pages domain (normalize_url seed) = [] ∧
    crawlRun pages domain today max_pages seed =
      some ⟨[normalize_url seed], [⟨normalize_url seed, today, "0.8"⟩],
        [normalize_url seed]⟩ := by
  have hg : get_links_from_page pages domain (normalize_url seed) = [] := by
    simp [get_links_from_page, hfail]
  refine ⟨hg, ?_⟩
  have hb : ¬ max_pages ≤ (initState.visited_urls).length := by
    simp [initState]; omega
  have hm : normalize_url seed ∉ initState.visited_urls := by
    simp [initState]
  rw [crawlRun, crawl_step pages domain today max_pages max_pages seed
    initState hb hm, hg]
  simp [initState, crawlList]

/-- Witness for C7: with a page environment where every fetch fails,
crawling `http://ex.com/a` with budget 1 records exactly the seed. -/
theorem c7_witness :
    get_links_from_page (fun _ => none) "ex.com"
      (normalize_url "http://ex.com/a") = [] ∧
    crawlRun (fun _ => none) "ex.com" "2026-10-12" 1 "http://ex.com/a" =
      some ⟨[normalize_url "http://ex.com/a"],
        [⟨normalize_url "http://ex.com/a", "2026-10-12", "0.8"⟩],
        [normalize_url "http://ex.com/a"]⟩ :=
  c7_fetch_failure_absorbed (fun _ => none) "ex.com" "2026-10-12" 1
    "http://ex.com/a" (by decide) rfl

/-- Claim C8: with budget 1 and any link graph, the crawl emits exactly
one record — the seed — and fetches no URL other than the seed (the
fetch log is exactly the normalized seed). -/
theorem c8_max_pages_one (pages : String → Option (List String))
    (domain today : String) (seed : String) :
    crawlRun pages domain today 1 seed =
      some ⟨[normalize_url seed], [⟨normalize_url seed, today, "0.8"⟩],
        [normalize_url seed]⟩ := by
  have hb : ¬ (1 : Nat) ≤ ([] : List String).length := by simp
  have hlist := crawlList_budget pages domain today 1 0
    (get_links_from_page pages domain (normalize_url seed))
    ⟨[normalize_url seed], [⟨normalize_url seed, today, "0.8"⟩],
      [normalize_url seed]⟩ (by simp)
  simpa [crawlRun, crawl, initState, hb] using hlist

/-- Claim C10: the scope filter is never applied to the crawl's own
argument: for every seed (in particular one rejected by
`is_valid_url`), a run with budget at least 1 inserts the normalized
seed into the visited set and appends a sitemap record for it. -/
theorem c10_seed_unfiltered (pages : String → Option (List String))
    (domain today : String) (max_pages : Nat) (seed : String)
    (hmax : 1 ≤ max_pages) :
    ∃ st, crawlRun pages domain today max_pages seed = some st ∧
      normalize_url seed ∈ st.visited_urls ∧
      (⟨normalize_url seed, today, "0.8"⟩ : SitemapRecord) ∈
        st.sitemap_urls := by
  have hb : ¬ max_pages ≤ ([] : List String).length := by simp; omega
  have hinv2 : Inv today max_pages
      ⟨[normalize_url seed], [⟨normalize_url seed, today, "0.8"⟩],
        [normalize_url seed]⟩ :=
    ⟨by simp, by simp, by simp, by simpa using hmax⟩
  have hstep := crawlList_gen
    (fun l s => crawl pages domain today max_pages max_pages l s)
    (fun s => Inv today max_pages s ∧
      max_pages - s.visited_urls.length < max_pages)
    (by
      rintro l s ⟨hi, hb2⟩
      obtain ⟨t, ht, hit, ⟨pre, hpre⟩, hpost⟩ :=
        crawl_sound pages domain today max_pages max_pages l s hi hb2
      refine ⟨t, ht, ⟨hit, ?_⟩, ⟨pre, hpre⟩, hpost⟩
      have : s.visited_urls.length ≤ t.visited_urls.length := by
        rw [hpre]; simp
      omega)
    (get_links_from_page pages domain (normalize_url seed))
    ⟨[normalize_url seed], [⟨normalize_url seed, today, "0.8"⟩],
      [normalize_url seed]⟩
    ⟨hinv2, by simp; omega⟩
  obtain ⟨st3, h3, _, ⟨pre, hpre⟩, ⟨post, hpost⟩⟩ := hstep
  refine ⟨st3, ?_, ?_, ?_⟩
  · have hb2 : ¬ max_pages ≤ (initState.visited_urls).length := by
      simp [initState]; omega
    have hm2 : normalize_url seed ∉ initState.visited_urls := by
      simp [initState]
    rw [crawlRun, crawl_step pages domain today max_pages max_pages seed
      initState hb2 hm2]
    simpa [initState] using h3
  · rw [hpre]; simp
  · rw [hpost]; simp

/-- Witness for C10: a seed whose scheme, host and extension all fail
the scope filter is still visited and recorded. -/
theorem c10_witness :
    is_valid_url "a.com" (normalize_url "ftp://other.com/img.jpg") = false ∧
    ∃ st, crawlRun (fun _ => none) "a.com" "2026-10-12" 1
        "ftp://other.com/img.jpg" = some st ∧
      normalize_url "ftp://other.com/img.jpg" ∈ st.visited_urls ∧
      (⟨normalize_url "ftp://other.com/img.jpg", "2026-10-12", "0.8"⟩ :
        SitemapRecord) ∈ st.sitemap_urls :=
  ⟨by decide,
   c10_seed_unfiltered (fun _ => none) "a.com" "2026-10-12" 1
     "ftp://other.com/img.jpg" (by decide)⟩

/-! ### Normalization: idempotence and congruence (claims C4, C9) -/

/-- Characters surviving the fragment strip are not '#'. -/
theorem truncAtHash_all (l : List Char) : ∀ c ∈ truncAtHash l, notHash c :=
  fun _ hc => List.mem_takeWhile_imp hc

/-- The fragment strip is the identity on '#'-free character lists. -/
theorem truncAtHash_eq_self (l : List Char) (h : ∀ c ∈ l, notHash c) :
    truncAtHash l = l := List.takeWhile_eq_self_iff.mpr h

/-- Stripping one slash from a list that ends in '/'. -/
theorem stripSlash_concat (l : List Char) :
    stripSlashChars (l ++ ['/']) = l := by
  unfold stripSlashChars
  rw [if_pos (List.getLast?_concat l), List.dropLast_concat]

/-- Stripping is the identity when the list does not end in '/'. -/
theorem stripSlash_of_ne (l : List Char) (h : ¬ l.getLast? = some '/') :
    stripSlashChars l = l := if_neg h

/-- The slash strip only removes characters. -/
theorem stripSlash_sub (l : List Char) (c : Char)
    (h : c ∈ stripSlashChars l) : c ∈ l := by
  unfold stripSlashChars at h
  split at h
  · exact List.dropLast_subset l h
  · exact h

/-- Claim C4, counterexample: `normalize_url` strips only one trailing
slash per application, so it is not idempotent on a URL ending in "//"
(the code's `url[:-1]` removes a single character). -/
theorem c4_counterexample :
    normalize_url (normalize_url "http://a.com/x//") ≠
      normalize_url "http://a.com/x//" := by decide

/-- Appending a fragment never changes the defragged part. -/
theorem truncAtHash_append_hash (a b : List Char) :
    truncAtHash (a ++ '#' :: b) = truncAtHash a := by
  induction a with
  | nil => rfl
  | cons c t ih =>
    rw [List.cons_append]
    unfold truncAtHash at ih ⊢
    rw [List.takeWhile_cons, List.takeWhile_cons]
    by_cases hc : notHash c
    · simp [hc, ih]
    · simp [hc]

/-- Appending anything after an existing '#' never changes the defragged
part. -/
theorem truncAtHash_append_of_hash (a b : List Char) (h : '#' ∈ a) :
    truncAtHash (a ++ b) = truncAtHash a := by
  induction a with
  | nil => simp at h
  | cons c t ih =>
    rw [List.cons_append]
    unfold truncAtHash at ih ⊢
    rw [List.takeWhile_cons, List.takeWhile_cons]
    by_cases hc : notHash c
    · have hm : '#' ∈ t := by
        rcases List.mem_cons.mp h with h1 | h1
        · rw [← h1] at hc; simp [notHash] at hc
        · exact h1
      simp [hc, ih hm]
    · simp [hc]

/-- Claim C9, counterexample: "http://a.com/x//" and "http://a.com/x/"
differ only by a single trailing path separator, yet they normalize to
different keys (the strip removes exactly one slash from each). -/
theorem c9_counterexample :
    "http://a.com/x//" = "http://a.com/x/" ++ "/" ∧
    normalize_url "http://a.com/x//" ≠ normalize_url "http://a.com/x/" :=
  ⟨rfl, by decide⟩

/-! ### Scope filter (claim C6) -/

/-- Claim C6, counterexample: a normalized URL whose host and scheme are
in scope and whose path has no excluded extension, but which
`is_valid_url` nevertheless rejects, because the code tests
`url.endswith(...)` on the whole URL string and the query ends in
".jpg". -/
theorem c6_counterexample :
    normalize_url "http://a.com/x?y=.jpg" = "http://a.com/x?y=.jpg" ∧
    netlocOf ("http://a.com/x?y=.jpg").data = "a.com".data ∧
    schemeOf ("http://a.com/x?y=.jpg").data = "http".data ∧
    endsWithExcluded (pathOf ("http://a.com/x?y=.jpg").data) = false ∧
    is_valid_url "a.com" "http://a.com/x?y=.jpg" = false := by
  refine ⟨by decide, by decide, by decide, by decide, by decide⟩

/-- Claim C6 (amended): `is_valid_url` returns true iff the URL's host
exactly equals the target domain, the scheme is http or https, and the
WHOLE URL STRING (not merely the path) does not end with one of .jpg,
.jpeg, .png, .gif, .pdf, .zip; the suffix match is case-sensitive, so
.JPG is not excluded. -/
theorem c6_scope_filter_amended (domain url : String) :
    is_valid_url domain url = true ↔
      (netlocOf url.data = domain.data ∧
       (schemeOf url.data = "http".data ∨ schemeOf url.data = "https".data) ∧
       endsWithExcluded url.data = false) := by
  simp [is_valid_url, and_assoc]

/-! ### Component preservation of normalization (claim C5) -/

/-- Taking from a take: if an element failing the outer predicate
survives the inner take, the outer take is oblivious to the inner one. -/
theorem takeWhile_takeWhile_of_mem {p q : Char → Bool} {l : List Char}
    (a : Char) (ha : a ∈ l.takeWhile q) (hpa : p a = false) :
    (l.takeWhile q).takeWhile p = l.takeWhile p := by
  induction l with
  | nil => simp at ha
  | cons c t ih =>
    by_cases hq : q c
    · rw [List.takeWhile_cons_of_pos hq] at ha ⊢
      by_cases hp : p c
      · rw [List.takeWhile_cons_of_pos hp, List.takeWhile_cons_of_pos hp]
        have hat : a ∈ t.takeWhile q := by
          rcases List.mem_cons.mp ha with h1 | h1
          · rw [h1] at hpa; rw [hpa] at hp; exact absurd hp (by simp)
          · exact h1
        rw [ih hat]
      · rw [List.takeWhile_cons_of_neg hp, List.takeWhile_cons_of_neg hp]
    · rw [List.takeWhile_cons_of_neg hq] at ha
      simp at ha

/-- Appending after an element that stops the take does not change the
take. -/
theorem takeWhile_append_of_mem {p : Char → Bool} {l1 : List Char}
    (l2 : List Char) (a : Char) (ha : a ∈ l1) (hpa : p a = false) :
    (l1 ++ l2).takeWhile p = l1.takeWhile p := by
  induction l1 with
  | nil => simp at ha
  | cons c t ih =>
    rw [List.cons_append]
    by_cases hp : p c
    · rw [List.takeWhile_cons_of_pos hp, List.takeWhile_cons_of_pos hp]
      have hat : a ∈ t := by
        rcases List.mem_cons.mp ha with h1 | h1
        · rw [h1] at hpa; rw [hpa] at hp; exact absurd hp (by simp)
        · exact h1
      rw [ih hat]
    · rw [List.takeWhile_cons_of_neg hp, List.takeWhile_cons_of_neg hp]

/-- A take that hits a failing element is strictly shorter than the
list. -/
theorem takeWhile_length_lt_of_mem {p : Char → Bool} {l : List Char}
    (a : Char) (ha : a ∈ l) (hpa : p a = false) :
    (l.takeWhile p).length < l.length := by
  induction l with
  | nil => simp at ha
  | cons c t ih =>
    by_cases hp : p c
    · rw [List.takeWhile_cons_of_pos hp]
      simp only [List.length_cons]
      have hat : a ∈ t := by
        rcases List.mem_cons.mp ha with h1 | h1
        · rw [h1] at hpa; rw [hpa] at hp; exact absurd hp (by simp)
        · exact h1
      exact Nat.succ_lt_succ (ih hat)
    · rw [List.takeWhile_cons_of_neg hp]
      simp

/-- The positive branch of `splitScheme`. -/
theorem splitScheme_pos {l : List Char}
    (h : (l.takeWhile notColon).length < l.length ∧
      l.takeWhile notColon ≠ [] ∧
      (l.takeWhile notColon).all schemeChar = true ∧
      ((l.takeWhile notColon).headD 'a').isAlpha = true) :
    splitScheme l = ((l.takeWhile notColon).map Char.toLower,
      l.drop ((l.takeWhile notColon).length + 1)) := by
  simp only [splitScheme]
  rw [if_pos h]

/-- The negative branch of `splitScheme`. -/
theorem splitScheme_neg {l : List Char}
    (h : ¬ ((l.takeWhile notColon).length < l.length ∧
      l.takeWhile notColon ≠ [] ∧
      (l.takeWhile notColon).all schemeChar = true ∧
      ((l.takeWhile notColon).headD 'a').isAlpha = true)) :
    splitScheme l = ([], l) := by
  simp only [splitScheme]
  rw [if_neg h]

/-- A valid scheme prefix contains no '#' (schemeChar rejects '#'). -/
theorem schemeChar_notHash {c : Char} (h : schemeChar c = true) :
    notHash c = true := by
  simp only [notHash, bne_iff_ne, ne_eq]
  intro he
  rw [he] at h
  simp [schemeChar] at h

/-- Decomposition of a list at its first ':' when one exists before the
end of the colon-free prefix. -/
theorem colon_decomp {l : List Char}
    (h : (l.takeWhile notColon).length < l.length) :
    ∃ rest, l = l.takeWhile notColon ++ ':' :: rest := by
  have hsplit : l.takeWhile notColon ++ l.dropWhile notColon = l :=
    List.takeWhile_append_dropWhile notColon l
  rcases hd : l.dropWhile notColon with _ | ⟨h0, rest⟩
  · rw [hd, List.append_nil] at hsplit
    rw [hsplit] at h
    omega
  · have hh0 : notHash '#' = false → True := fun _ => trivial
    have hhead := List.head?_dropWhile_not notColon l
    rw [hd] at hhead
    simp only [List.head?_cons] at hhead
    have h0c : h0 = ':' := by
      simpa [notColon] using hhead
    refine ⟨rest, ?_⟩
    conv_lhs => rw [← hsplit, hd]
    rw [h0c]

/-- Dropping past a decomposition at a single separator. -/
theorem drop_after_sep (a : List Char) (b : Char) (c : List Char) :
    (a ++ b :: c).drop (a.length + 1) = c := by
  induction a with
  | nil => simp
  | cons x t _ih => simp

/-- Scheme splitting commutes with fragment stripping: the defragged URL
has the same scheme, and its post-scheme remainder is the defragged
post-scheme remainder. -/
theorem splitScheme_trunc (l : List Char) :
    splitScheme (truncAtHash l) =
      (schemeOf l, truncAtHash (afterScheme l)) := by
  by_cases hv : (l.takeWhile notColon).length < l.length ∧
      l.takeWhile notColon ≠ [] ∧
      (l.takeWhile notColon).all schemeChar = true ∧
      ((l.takeWhile notColon).headD 'a').isAlpha = true
  · obtain ⟨hlen, hne, hall, hhead⟩ := hv
    obtain ⟨rest, hdecomp⟩ := colon_decomp hlen
    have hpreHash : ∀ c ∈ l.takeWhile notColon, notHash c = true :=
      fun c hc => schemeChar_notHash (List.all_eq_true.mp hall c hc)
    have hpreColon : ∀ c ∈ l.takeWhile notColon, notColon c = true :=
      fun c hc => List.mem_takeWhile_imp hc
    have hdl : truncAtHash l =
        l.takeWhile notColon ++ ':' :: truncAtHash rest := by
      unfold truncAtHash
      conv_lhs => rw [hdecomp]
      rw [List.takeWhile_append_of_pos hpreHash,
        List.takeWhile_cons_of_pos (by decide : notHash ':' = true)]
    have hpred : (truncAtHash l).takeWhile notColon =
        l.takeWhile notColon := by
      rw [hdl, List.takeWhile_append_of_pos hpreColon,
        List.takeWhile_cons_of_neg (by decide)]
      simp
    have hlend : ((truncAtHash l).takeWhile notColon).length <
        (truncAtHash l).length := by
      rw [hpred, hdl]
      simp only [List.length_append, List.length_cons]
      omega
    have h2 : (truncAtHash l).takeWhile notColon ≠ [] := by
      rw [hpred]; exact hne
    have h3 : ((truncAtHash l).takeWhile notColon).all schemeChar = true := by
      rw [hpred]; exact hall
    have h4 : (((truncAtHash l).takeWhile notColon).headD 'a').isAlpha
        = true := by
      rw [hpred]; exact hhead
    have hsch : schemeOf l = (l.takeWhile notColon).map Char.toLower := by
      simp only [schemeOf]
      rw [splitScheme_pos ⟨hlen, hne, hall, hhead⟩]
    have hrest : afterScheme l = rest := by
      simp only [afterScheme]
      rw [splitScheme_pos ⟨hlen, hne, hall, hhead⟩]
      show l.drop ((l.takeWhile notColon).length + 1) = rest
      nth_rewrite 2 [hdecomp]
      exact drop_after_sep _ _ _
    have hdrop : (truncAtHash l).drop ((l.takeWhile notColon).length + 1) =
        truncAtHash rest := by
      rw [hdl]
      exact drop_after_sep _ _ _
    rw [splitScheme_pos ⟨hlend, h2, h3, h4⟩, hpred, hsch, hrest, hdrop]
  · have hneg : splitScheme l = ([], l) := splitScheme_neg hv
    by_cases hcd : ':' ∈ truncAtHash l
    · have hpred : (truncAtHash l).takeWhile notColon =
          l.takeWhile notColon :=
        takeWhile_takeWhile_of_mem ':' hcd (by decide)
      have hnegd : splitScheme (truncAtHash l) = ([], truncAtHash l) := by
        apply splitScheme_neg
        rintro ⟨c1, c2, c3, c4⟩
        apply hv
        refine ⟨?_, ?_, ?_, ?_⟩
        · exact takeWhile_length_lt_of_mem ':'
            ((List.takeWhile_sublist notHash).subset hcd) (by decide)
        · rwa [hpred] at c2
        · rwa [hpred] at c3
        · rwa [hpred] at c4
      rw [hnegd]
      simp only [schemeOf, afterScheme, hneg]
    · have halld : ∀ c ∈ truncAtHash l, notColon c = true := by
        intro c hc
        simp only [notColon, bne_iff_ne, ne_eq]
        intro he
        rw [he] at hc
        exact hcd hc
      have hpred : (truncAtHash l).takeWhile notColon = truncAtHash l :=
        List.takeWhile_eq_self_iff.mpr halld
      have hnegd : splitScheme (truncAtHash l) = ([], truncAtHash l) := by
        apply splitScheme_neg
        rintro ⟨c1, _, _, _⟩
        rw [hpred] at c1
        omega
      rw [hnegd]
      simp only [schemeOf, afterScheme, hneg]

/-- Netloc characters are not '#'. -/
theorem netChar_notHash {c : Char} (h : netChar c = true) :
    notHash c = true := by
  simp only [netChar, Bool.and_eq_true] at h
  exact h.2

/-- Taking with a stronger predicate ignores a previous weaker take. -/
theorem takeWhile_takeWhile_of_imp {p q : Char → Bool}
    (himp : ∀ c, p c = true → q c = true) (l : List Char) :
    (l.takeWhile q).takeWhile p = l.takeWhile p := by
  induction l with
  | nil => rfl
  | cons c t ih =>
    by_cases hq : q c
    · rw [List.takeWhile_cons_of_pos hq]
      by_cases hp : p c
      · rw [List.takeWhile_cons_of_pos hp, List.takeWhile_cons_of_pos hp, ih]
      · rw [List.takeWhile_cons_of_neg hp, List.takeWhile_cons_of_neg hp]
    · have hp : ¬ p c = true := fun h => hq (himp c h)
      rw [List.takeWhile_cons_of_neg hq, List.takeWhile_cons_of_neg hp]
      rfl

/-- Dropping the netloc commutes with fragment stripping. -/
theorem dropWhileNet_trunc (t : List Char) :
    (t.takeWhile notHash).dropWhile netChar =
      truncAtHash (t.dropWhile netChar) := by
  induction t with
  | nil => rfl
  | cons c t ih =>
    by_cases hn : netChar c
    · have hh : notHash c = true := netChar_notHash hn
      rw [List.takeWhile_cons_of_pos hh, List.dropWhile_cons_of_pos hn,
        List.dropWhile_cons_of_pos hn, ih]
    · by_cases hh : notHash c
      · rw [List.takeWhile_cons_of_pos hh, List.dropWhile_cons_of_neg hn,
          List.dropWhile_cons_of_neg hn]
        unfold truncAtHash
        rw [List.takeWhile_cons_of_pos hh]
      · have hc : c = '#' := by simpa [notHash] using hh
        rw [List.takeWhile_cons_of_neg hh, List.dropWhile_cons_of_neg hn]
        unfold truncAtHash
        rw [List.takeWhile_cons_of_neg hh]
        rfl

/-- The netloc of a URL is unchanged by fragment stripping. -/
theorem netlocOf_trunc (l : List Char) :
    netlocOf (truncAtHash l) = netlocOf l := by
  have hAS : afterScheme (truncAtHash l) = truncAtHash (afterScheme l) := by
    simp only [afterScheme, splitScheme_trunc l]
  rcases hr : afterScheme l with _ | ⟨c1, r1⟩
  · simp only [netlocOf, hAS, hr]
    rfl
  · rcases r1 with _ | ⟨c2, rest⟩
    · by_cases h1 : notHash c1
      · have : truncAtHash [c1] = [c1] := by
          unfold truncAtHash
          rw [List.takeWhile_cons_of_pos h1]
          rfl
        simp only [netlocOf, hAS, hr, this]
      · have : truncAtHash [c1] = [] := by
          unfold truncAtHash
          rw [List.takeWhile_cons_of_neg h1]
        simp only [netlocOf, hAS, hr, this]
    · by_cases h1 : notHash c1
      · by_cases h2 : notHash c2
        · have hd2 : truncAtHash (c1 :: c2 :: rest) =
              c1 :: c2 :: truncAtHash rest := by
            unfold truncAtHash
            rw [List.takeWhile_cons_of_pos h1, List.takeWhile_cons_of_pos h2]
          by_cases hs : c1 = '/' ∧ c2 = '/'
          · simp only [netlocOf, hAS, hr, hd2, if_pos hs]
            exact takeWhile_takeWhile_of_imp (fun c => netChar_notHash) rest
          · simp only [netlocOf, hAS, hr, hd2, if_neg hs]
        · have hc2 : c2 = '#' := by simpa [notHash] using h2
          have hd2 : truncAtHash (c1 :: c2 :: rest) = [c1] := by
            unfold truncAtHash
            rw [List.takeWhile_cons_of_pos h1, List.takeWhile_cons_of_neg h2]
          have hs : ¬ (c1 = '/' ∧ c2 = '/') := by
            rintro ⟨_, h⟩
            rw [hc2] at h
            exact absurd h (by decide)
          simp only [netlocOf, hAS, hr, hd2, if_neg hs]
      · have hc1 : c1 = '#' := by simpa [notHash] using h1
        have hd2 : truncAtHash (c1 :: c2 :: rest) = [] := by
          unfold truncAtHash
          rw [List.takeWhile_cons_of_neg h1]
        have hs : ¬ (c1 = '/' ∧ c2 = '/') := by
          rintro ⟨h, _⟩
          rw [hc1] at h
          exact absurd h (by decide)
        simp only [netlocOf, hAS, hr, hd2, if_neg hs]

/-- The post-netloc text of the defragged URL is the defragged
post-netloc text. -/
theorem afterNetloc_trunc (l : List Char) :
    afterNetloc (truncAtHash l) = truncAtHash (afterNetloc l) := by
  have hAS : afterScheme (truncAtHash l) = truncAtHash (afterScheme l) := by
    simp only [afterScheme, splitScheme_trunc l]
  rcases hr : afterScheme l with _ | ⟨c1, r1⟩
  · simp only [afterNetloc, hAS, hr]
    rfl
  · rcases r1 with _ | ⟨c2, rest⟩
    · by_cases h1 : notHash c1
      · have hd1 : truncAtHash [c1] = [c1] := by
          unfold truncAtHash
          rw [List.takeWhile_cons_of_pos h1]
          rfl
        simp only [afterNetloc, hAS, hr, hd1]
      · have hd1 : truncAtHash [c1] = [] := by
          unfold truncAtHash
          rw [List.takeWhile_cons_of_neg h1]
        simp only [afterNetloc, hAS, hr, hd1]
    · by_cases h1 : notHash c1
      · by_cases h2 : notHash c2
        · have hd2 : truncAtHash (c1 :: c2 :: rest) =
              c1 :: c2 :: truncAtHash rest := by
            unfold truncAtHash
            rw [List.takeWhile_cons_of_pos h1, List.takeWhile_cons_of_pos h2]
          by_cases hs : c1 = '/' ∧ c2 = '/'
          · simp only [afterNetloc, hAS, hr, hd2, if_pos hs]
            exact dropWhileNet_trunc rest
          · simp only [afterNetloc, hAS, hr, hd2, if_neg hs, hd2]
        · have hc2 : c2 = '#' := by simpa [notHash] using h2
          have hd2 : truncAtHash (c1 :: c2 :: rest) = [c1] := by
            unfold truncAtHash
            rw [List.takeWhile_cons_of_pos h1, List.takeWhile_cons_of_neg h2]
          have hs : ¬ (c1 = '/' ∧ c2 = '/') := by
            rintro ⟨_, h⟩
            rw [hc2] at h
            exact absurd h (by decide)
          simp only [afterNetloc, hAS, hr, hd2, if_neg hs, hd2]
      · have hc1 : c1 = '#' := by simpa [notHash] using h1
        have hd2 : truncAtHash (c1 :: c2 :: rest) = [] := by
          unfold truncAtHash
          rw [List.takeWhile_cons_of_neg h1]
        have hs : ¬ (c1 = '/' ∧ c2 = '/') := by
          rintro ⟨h, _⟩
          rw [hc1] at h
          exact absurd h (by decide)
        simp only [afterNetloc, hAS, hr, hd2, if_neg hs, hd2]

/-- The path-and-query text of a URL is unchanged by fragment
stripping. -/
theorem restNoFrag_trunc (l : List Char) :
    restNoFrag (truncAtHash l) = restNoFrag l := by
  simp only [restNoFrag, afterNetloc_trunc l]
  exact takeWhile_takeWhile_of_imp (fun _ h => h) (afterNetloc l)

/-- The scheme of a URL is unchanged by fragment stripping. -/
theorem schemeOf_trunc (l : List Char) :
    schemeOf (truncAtHash l) = schemeOf l := by
  simp only [schemeOf, splitScheme_trunc l]

/-- The path of a URL is unchanged by fragment stripping. -/
theorem pathOf_trunc (l : List Char) :
    pathOf (truncAtHash l) = pathOf l := by
  simp only [pathOf, restNoFrag_trunc l]

/-- The query of a URL is unchanged by fragment stripping. -/
theorem queryOf_trunc (l : List Char) :
    queryOf (truncAtHash l) = queryOf l := by
  simp only [queryOf, restNoFrag_trunc l, pathOf_trunc l]

/-- Appending one trailing '/' extends the post-scheme remainder and
leaves the scheme unchanged. -/
theorem splitScheme_concat_slash (t : List Char) :
    splitScheme (t ++ ['/']) = (schemeOf t, afterScheme t ++ ['/']) := by
  by_cases hv : (t.takeWhile notColon).length < t.length ∧
      t.takeWhile notColon ≠ [] ∧
      (t.takeWhile notColon).all schemeChar = true ∧
      ((t.takeWhile notColon).headD 'a').isAlpha = true
  · obtain ⟨hlen, hne, hall, hhead⟩ := hv
    obtain ⟨rest, hdecomp⟩ := colon_decomp hlen
    have hpreColon : ∀ c ∈ t.takeWhile notColon, notColon c = true :=
      fun c hc => List.mem_takeWhile_imp hc
    have hdecomp2 : t ++ ['/'] =
        t.takeWhile notColon ++ ':' :: (rest ++ ['/']) := by
      conv_lhs => rw [hdecomp]
      simp
    have hpre2 : (t ++ ['/']).takeWhile notColon = t.takeWhile notColon := by
      conv_lhs => rw [hdecomp2]
      rw [List.takeWhile_append_of_pos hpreColon,
        List.takeWhile_cons_of_neg (by decide)]
      simp
    have hlen2 : ((t ++ ['/']).takeWhile notColon).length <
        (t ++ ['/']).length := by
      rw [hpre2]
      simp only [List.length_append, List.length_cons]
      omega
    have h2 : (t ++ ['/']).takeWhile notColon ≠ [] := by
      rw [hpre2]; exact hne
    have h3 : ((t ++ ['/']).takeWhile notColon).all schemeChar = true := by
      rw [hpre2]; exact hall
    have h4 : (((t ++ ['/']).takeWhile notColon).headD 'a').isAlpha
        = true := by
      rw [hpre2]; exact hhead
    have hrest : afterScheme t = rest := by
      simp only [afterScheme]
      rw [splitScheme_pos ⟨hlen, hne, hall, hhead⟩]
      show t.drop ((t.takeWhile notColon).length + 1) = rest
      nth_rewrite 2 [hdecomp]
      exact drop_after_sep _ _ _
    have hsch : schemeOf t = (t.takeWhile notColon).map Char.toLower := by
      simp only [schemeOf]
      rw [splitScheme_pos ⟨hlen, hne, hall, hhead⟩]
    have hdrop : (t ++ ['/']).drop ((t.takeWhile notColon).length + 1) =
        rest ++ ['/'] := by
      conv_lhs => rw [hdecomp2]
      exact drop_after_sep _ _ _
    rw [splitScheme_pos ⟨hlen2, h2, h3, h4⟩, hpre2, hdrop, hsch, hrest]
  · have hneg : splitScheme t = ([], t) := splitScheme_neg hv
    by_cases hc : ':' ∈ t
    · have hpre2 : (t ++ ['/']).takeWhile notColon = t.takeWhile notColon :=
        takeWhile_append_of_mem ['/'] ':' hc (by decide)
      have hlent : (t.takeWhile notColon).length < t.length :=
        takeWhile_length_lt_of_mem ':' hc (by decide)
      have hnegd : splitScheme (t ++ ['/']) = ([], t ++ ['/']) := by
        apply splitScheme_neg
        rintro ⟨c1, c2, c3, c4⟩
        apply hv
        refine ⟨hlent, ?_, ?_, ?_⟩
        · rwa [hpre2] at c2
        · rwa [hpre2] at c3
        · rwa [hpre2] at c4
      rw [hnegd]
      simp only [schemeOf, afterScheme, hneg]
    · have hall2 : ∀ c ∈ t ++ ['/'], notColon c = true := by
        intro c hcm
        rcases List.mem_append.mp hcm with h1 | h1
        · simp only [notColon, bne_iff_ne, ne_eq]
          intro he
          rw [he] at h1
          exact hc h1
        · simp at h1
          rw [h1]
          decide
      have hpre2 : (t ++ ['/']).takeWhile notColon = t ++ ['/'] :=
        List.takeWhile_eq_self_iff.mpr hall2
      have hnegd : splitScheme (t ++ ['/']) = ([], t ++ ['/']) := by
        apply splitScheme_neg
        rintro ⟨c1, _, _, _⟩
        rw [hpre2] at c1
        omega
      rw [hnegd]
      simp only [schemeOf, afterScheme, hneg]

/-- Every character of the post-scheme remainder occurs in the URL. -/
theorem afterScheme_subset (l : List Char) :
    ∀ c ∈ afterScheme l, c ∈ l := by
  intro c hc
  by_cases hv : (l.takeWhile notColon).length < l.length ∧
      l.takeWhile notColon ≠ [] ∧
      (l.takeWhile notColon).all schemeChar = true ∧
      ((l.takeWhile notColon).headD 'a').isAlpha = true
  · simp only [afterScheme, splitScheme_pos hv] at hc
    exact List.drop_subset _ l hc
  · simpa only [afterScheme, splitScheme_neg hv] using hc

/-- Every character of the post-netloc remainder occurs in the URL. -/
theorem afterNetloc_subset (l : List Char) :
    ∀ c ∈ afterNetloc l, c ∈ l := by
  intro c hc
  rcases hr : afterScheme l with _ | ⟨c1, r1⟩
  · simp only [afterNetloc, hr] at hc
    simp at hc
  · rcases r1 with _ | ⟨c2, rest⟩
    · simp only [afterNetloc, hr] at hc
      exact afterScheme_subset l c (hr ▸ hc)
    · simp only [afterNetloc, hr] at hc
      by_cases hs : c1 = '/' ∧ c2 = '/'
      · rw [if_pos hs] at hc
        have : c ∈ c1 :: c2 :: rest := by
          have hsub := (List.dropWhile_sublist netChar).subset hc
          exact List.mem_cons_of_mem c1 (List.mem_cons_of_mem c2 hsub)
        exact afterScheme_subset l c (hr ▸ this)
      · rw [if_neg hs] at hc
        exact afterScheme_subset l c (hr ▸ hc)

/-- With one trailing '/' appended (and away from the degenerate
post-scheme remainder "/"), the netloc is unchanged and the post-netloc
remainder gains the trailing '/'. -/
theorem netloc_concat_slash (t : List Char) (hdeg : afterScheme t ≠ ['/']) :
    netlocOf (t ++ ['/']) = netlocOf t ∧
    afterNetloc (t ++ ['/']) = afterNetloc t ++ ['/'] := by
  have hAS : afterScheme (t ++ ['/']) = afterScheme t ++ ['/'] := by
    simp only [afterScheme, splitScheme_concat_slash t]
  rcases hr : afterScheme t with _ | ⟨c1, r1⟩
  · rw [hr, List.nil_append] at hAS
    constructor
    · simp only [netlocOf, hAS, hr]
    · simp only [afterNetloc, hAS, hr]
      simp
  · rcases r1 with _ | ⟨c2, rest⟩
    · have hc1 : c1 ≠ '/' := by
        intro h
        apply hdeg
        rw [hr, h]
      rw [hr] at hAS
      have hAS2 : afterScheme (t ++ ['/']) = [c1, '/'] := by
        simpa using hAS
      constructor
      · simp only [netlocOf, hAS2, hr]
        rw [if_neg (by simp [hc1])]
      · simp only [afterNetloc, hAS2, hr]
        rw [if_neg (by simp [hc1])]
        simp
    · rw [hr] at hAS
      have hAS2 : afterScheme (t ++ ['/']) = c1 :: c2 :: (rest ++ ['/']) := by
        simpa using hAS
      by_cases hs : c1 = '/' ∧ c2 = '/'
      · by_cases hall : ∀ c ∈ rest, netChar c = true
        · have hnl1 : (rest ++ ['/']).takeWhile netChar = rest := by
            rw [List.takeWhile_append_of_pos hall,
              List.takeWhile_cons_of_neg (by decide)]
            simp
          have hnl2 : rest.takeWhile netChar = rest :=
            List.takeWhile_eq_self_iff.mpr hall
          have hdw1 : (rest ++ ['/']).dropWhile netChar = ['/'] :=
            List.dropWhile_append_of_pos hall
          have hdw2 : rest.dropWhile netChar = [] :=
            List.dropWhile_eq_nil_iff.mpr hall
          constructor
          · simp only [netlocOf, hAS2, hr, if_pos hs, hnl1, hnl2]
          · simp only [afterNetloc, hAS2, hr, if_pos hs, hdw1, hdw2]
            simp
        · push_neg at hall
          obtain ⟨a, ha, hna⟩ := hall
          have hna2 : netChar a = false := by
            cases h0 : netChar a
            · rfl
            · exact absurd h0 hna
          have hne : rest.dropWhile netChar ≠ [] := by
            intro h0
            obtain h1 := List.dropWhile_eq_nil_iff.mp h0 a ha
            rw [hna2] at h1
            simp at h1
          constructor
          · simp only [netlocOf, hAS2, hr, if_pos hs,
              takeWhile_append_of_mem ['/'] a ha hna2]
          · have hdw : (rest ++ ['/']).dropWhile netChar =
                rest.dropWhile netChar ++ ['/'] := by
              rw [List.dropWhile_append]
              rw [if_neg (by simpa [List.isEmpty_iff] using hne)]
            simp only [afterNetloc, hAS2, hr, if_pos hs, hdw]
      · constructor
        · simp only [netlocOf, hAS2, hr, if_neg hs]
        · simp only [afterNetloc, hAS2, hr, if_neg hs]
          simp

/-- A '#'-free URL has an empty fragment part. -/
theorem fragPart_eq_nil {l : List Char}
    (h : ∀ c ∈ l, notHash c = true) : fragPartOf l = [] := by
  unfold fragPartOf
  exact List.dropWhile_eq_nil_iff.mpr
    (fun a ha => h a (afterNetloc_subset l a ha))

/-- For a '#'-free URL the path-and-query text is the whole post-netloc
remainder. -/
theorem restNoFrag_eq_afterNetloc {l : List Char}
    (h : ∀ c ∈ l, notHash c = true) : restNoFrag l = afterNetloc l := by
  unfold restNoFrag
  exact List.takeWhile_eq_self_iff.mpr
    (fun a ha => h a (afterNetloc_subset l a ha))

/-! ### The reassembled (defragged) URL contains no '#' -/

/-- `Char.ofNat` on a valid scalar value round-trips through `toNat`. -/
theorem char_toNat_ofNat {n : Nat} (h : n.isValidChar) :
    (Char.ofNat n).toNat = n := by
  unfold Char.ofNat
  rw [dif_pos h]
  rfl

/-- Lower-casing a scheme character cannot produce '#'. -/
theorem toLower_ne_hash {c : Char} (hs : schemeChar c = true) :
    notHash c.toLower = true := by
  simp only [notHash, bne_iff_ne, ne_eq]
  intro he
  simp only [Char.toLower] at he
  by_cases hc : c.toNat ≥ 65 ∧ c.toNat ≤ 90
  · rw [if_pos hc] at he
    have hv : (c.toNat + 32).isValidChar :=
      Or.inl (show c.toNat + 32 < 55296 by omega)
    have h2 := congrArg Char.toNat he
    rw [char_toNat_ofNat hv] at h2
    have h3 : ('#').toNat = 35 := by decide
    rw [h3] at h2
    omega
  · rw [if_neg hc] at he
    rw [he] at hs
    exact absurd hs (by decide)

/-- The parsed scheme contains no '#'. -/
theorem hash_not_mem_schemeOf (l : List Char) : '#' ∉ schemeOf l := by
  intro hc
  by_cases hv : (l.takeWhile notColon).length < l.length ∧
      l.takeWhile notColon ≠ [] ∧
      (l.takeWhile notColon).all schemeChar = true ∧
      ((l.takeWhile notColon).headD 'a').isAlpha = true
  · simp only [schemeOf, splitScheme_pos hv] at hc
    obtain ⟨c0, hc0, heq⟩ := List.mem_map.mp hc
    have hne := toLower_ne_hash (List.all_eq_true.mp hv.2.2.1 c0 hc0)
    rw [heq] at hne
    exact absurd hne (by decide)
  · simp only [schemeOf, splitScheme_neg hv] at hc
    simp at hc

/-- Every character of the parsed netloc passes the netloc scan. -/
theorem netlocOf_netChar (l : List Char) :
    ∀ c ∈ netlocOf l, netChar c = true := by
  intro c hc
  rcases hr : afterScheme l with _ | ⟨c1, _ | ⟨c2, rest⟩⟩ <;>
    simp only [netlocOf, hr] at hc
  · exact absurd hc (List.not_mem_nil c)
  · exact absurd hc (List.not_mem_nil c)
  · by_cases hs : c1 = '/' ∧ c2 = '/'
    · rw [if_pos hs] at hc
      exact List.mem_takeWhile_imp hc
    · rw [if_neg hs] at hc
      exact absurd hc (List.not_mem_nil c)

/-- The parsed netloc contains no '#'. -/
theorem hash_not_mem_netlocOf (l : List Char) : '#' ∉ netlocOf l :=
  fun hc => absurd (netlocOf_netChar l '#' hc) (by decide)

/-- The path-and-query text contains no '#'. -/
theorem restNoFrag_notHash (l : List Char) :
    ∀ c ∈ restNoFrag l, notHash c = true :=
  fun _ hc => List.mem_takeWhile_imp hc

/-- The parsed path contains no '#'. -/
theorem hash_not_mem_pathOf (l : List Char) : '#' ∉ pathOf l := by
  intro hc
  have h1 : '#' ∈ restNoFrag l :=
    (List.takeWhile_sublist notQmark).subset hc
  exact absurd (restNoFrag_notHash l '#' h1) (by decide)

/-- The parsed query contains no '#'. -/
theorem hash_not_mem_queryOf (l : List Char) : '#' ∉ queryOf l := by
  intro hc
  have h1 : '#' ∈ restNoFrag l := List.drop_subset _ _ hc
  exact absurd (restNoFrag_notHash l '#' h1) (by decide)

/-- Characters of the netloc-reattachment step come from the netloc, the
path, or the '/' separators. -/
theorem mem_urlAddNetloc {c : Char} {n p : List Char}
    (h : c ∈ urlAddNetloc n p) : c ∈ n ∨ c ∈ p ∨ c = '/' := by
  unfold urlAddNetloc at h
  split at h
  · rcases List.mem_cons.mp h with h1 | h1
    · exact Or.inr (Or.inr h1)
    · rcases List.mem_cons.mp h1 with h2 | h2
      · exact Or.inr (Or.inr h2)
      · rcases List.mem_append.mp h2 with h3 | h3
        · exact Or.inl h3
        · revert h3
          split
          · intro h4
            rcases List.mem_cons.mp h4 with h5 | h5
            · exact Or.inr (Or.inr h5)
            · exact Or.inr (Or.inl h5)
          · intro h4
            exact Or.inr (Or.inl h4)
  · exact Or.inr (Or.inl h)

/-- Characters of the scheme-reattachment step come from the scheme, the
':' separator, or the rest. -/
theorem mem_urlAddScheme {c : Char} {s u : List Char}
    (h : c ∈ urlAddScheme s u) : c ∈ s ∨ c = ':' ∨ c ∈ u := by
  unfold urlAddScheme at h
  split at h
  · rcases List.mem_append.mp h with h1 | h1
    · exact Or.inl h1
    · rcases List.mem_cons.mp h1 with h2 | h2
      · exact Or.inr (Or.inl h2)
      · exact Or.inr (Or.inr h2)
  · exact Or.inr (Or.inr h)

/-- Characters of the query-reattachment step come from the rest, the
'?' separator, or the query. -/
theorem mem_urlAddQuery {c : Char} {u q : List Char}
    (h : c ∈ urlAddQuery u q) : c ∈ u ∨ c = '?' ∨ c ∈ q := by
  unfold urlAddQuery at h
  split at h
  · rcases List.mem_append.mp h with h1 | h1
    · exact Or.inl h1
    · rcases List.mem_cons.mp h1 with h2 | h2
      · exact Or.inr (Or.inl h2)
      · exact Or.inr (Or.inr h2)
  · exact Or.inl h

/-- Reassembling '#'-free components yields a '#'-free URL. -/
theorem hash_not_mem_urlunsplit {s n p q : List Char}
    (hs : '#' ∉ s) (hn : '#' ∉ n) (hp : '#' ∉ p) (hq : '#' ∉ q) :
    '#' ∉ urlunsplitNoFrag s n p q := by
  intro h
  rcases mem_urlAddQuery h with h1 | h1 | h1
  · rcases mem_urlAddScheme h1 with h2 | h2 | h2
    · exact hs h2
    · exact absurd h2 (by decide)
    · rcases mem_urlAddNetloc h2 with h3 | h3 | h3
      · exact hn h3
      · exact hp h3
      · exact absurd h3 (by decide)
  · exact absurd h1 (by decide)
  · exact hq h1

/-- `urldefrag` leaves a '#'-free URL unchanged (the `else` branch of
the CPython source, taken without any parsing). -/
theorem urldefrag_no_hash {l : List Char} (h : '#' ∉ l) :
    urldefragChars l = l := if_neg h

/-- The defragged URL contains no '#'. -/
theorem hash_not_mem_urldefrag (l : List Char) : '#' ∉ urldefragChars l := by
  by_cases h : '#' ∈ l
  · unfold urldefragChars
    rw [if_pos h]
    exact hash_not_mem_urlunsplit (hash_not_mem_schemeOf l)
      (hash_not_mem_netlocOf l) (hash_not_mem_pathOf l)
      (hash_not_mem_queryOf l)
  · rw [urldefrag_no_hash h]
    exact h

/-- Pointwise form of the previous lemma. -/
theorem urldefrag_all_notHash (l : List Char) :
    ∀ c ∈ urldefragChars l, notHash c = true := by
  intro c hc
  simp only [notHash, bne_iff_ne, ne_eq]
  intro he
  rw [he] at hc
  exact hash_not_mem_urldefrag l hc

/-- The slash strip is idempotent away from a trailing "//". -/
theorem stripSlash_idem {d : List Char}
    (h : ("//".data).isSuffixOf d = false) :
    stripSlashChars (stripSlashChars d) = stripSlashChars d := by
  by_cases hl : d.getLast? = some '/'
  · rcases List.eq_nil_or_concat d with hnil | ⟨t, a, hta⟩
    · rw [hnil] at hl; simp at hl
    · rw [List.concat_eq_append] at hta
      have ha : a = '/' := by
        rw [hta, List.getLast?_concat] at hl
        exact Option.some.inj hl
      subst ha
      rw [hta, stripSlash_concat]
      apply stripSlash_of_ne
      intro hlt
      rcases List.eq_nil_or_concat t with hnil2 | ⟨t2, b, ht2⟩
      · rw [hnil2] at hlt; simp at hlt
      · rw [List.concat_eq_append] at ht2
        have hb : b = '/' := by
          rw [ht2, List.getLast?_concat] at hlt
          exact Option.some.inj hlt
        subst hb
        have hsuf : ("//".data).isSuffixOf d = true := by
          apply List.isSuffixOf_iff_suffix.mpr
          refine ⟨t2, ?_⟩
          rw [hta, ht2]
          simp
        rw [hsuf] at h
        simp at h
  · rw [stripSlash_of_ne _ hl]
    exact stripSlash_of_ne _ hl

/-- Claim C4 (amended): normalization is idempotent on every URL u on
which CPython's urlsplit performs no pre-parse rewrite and raises no
exception (`urlOk`) and whose defragged form does not end in "//"; when
the defragged form ends in "//" a second application strips a second
slash. -/
theorem c4_normalize_idempotent_amended (u : String) (_hok : urlOk u.data)
    (h : ("//".data).isSuffixOf (urldefragChars u.data) = false) :
    normalize_url (normalize_url u) = normalize_url u := by
  have hm : '#' ∉ stripSlashChars (urldefragChars u.data) := fun hmem =>
    hash_not_mem_urldefrag u.data (stripSlash_sub _ _ hmem)
  show String.mk (stripSlashChars (urldefragChars
      (stripSlashChars (urldefragChars u.data)))) = _
  rw [urldefrag_no_hash hm, stripSlash_idem h]
  rfl

/-- Witness for the amended C4 at a fragment-and-slash URL. -/
theorem c4_amended_witness :
    urlOk ("http://a.com/x/#frag").data ∧
    ("//".data).isSuffixOf (urldefragChars ("http://a.com/x/#frag").data) =
      false ∧
    normalize_url (normalize_url "http://a.com/x/#frag") =
      normalize_url "http://a.com/x/#frag" :=
  ⟨by decide, by decide,
    c4_normalize_idempotent_amended "http://a.com/x/#frag" (by decide)
      (by decide)⟩

/-- URLs with the same pre-'#' prefix have identical urlsplit
components. -/
theorem comps_eq_of_trunc_eq {a b : List Char}
    (h : truncAtHash a = truncAtHash b) :
    schemeOf a = schemeOf b ∧ netlocOf a = netlocOf b ∧
    pathOf a = pathOf b ∧ queryOf a = queryOf b := by
  refine ⟨?_, ?_, ?_, ?_⟩
  · rw [← schemeOf_trunc a, ← schemeOf_trunc b, h]
  · rw [← netlocOf_trunc a, ← netlocOf_trunc b, h]
  · rw [← pathOf_trunc a, ← pathOf_trunc b, h]
  · rw [← queryOf_trunc a, ← queryOf_trunc b, h]

/-- Fragment-bearing URLs with the same pre-'#' prefix defrag to the
same URL. -/
theorem urldefrag_eq_of_trunc_eq {a b : List Char}
    (ha : '#' ∈ a) (hb : '#' ∈ b) (h : truncAtHash a = truncAtHash b) :
    urldefragChars a = urldefragChars b := by
  obtain ⟨h1, h2, h3, h4⟩ := comps_eq_of_trunc_eq h
  unfold urldefragChars
  rw [if_pos ha, if_pos hb, h1, h2, h3, h4]

/-- Claim C9 (amended), for every URL u where CPython's urlsplit
performs no pre-parse rewrite and raises no exception (`urlOk`): all
fragment-variants of u normalize to the same key; that key equals
`normalize(u)` itself when u is fragment-free and invariant under the
urlsplit/urlunsplit round-trip (in particular, when its scheme is
already lower-case and it has no empty '?' query); and u and u ++ "/"
normalize to the same key provided u does not already end in '/'. -/
theorem c9_normalize_congruence_amended (u f1 f2 : String)
    (_hok : urlOk u.data) :
    normalize_url (u ++ "#" ++ f1) = normalize_url (u ++ "#" ++ f2) ∧
    (('#' ∉ u.data ∧
      urlunsplitNoFrag (schemeOf u.data) (netlocOf u.data)
        (pathOf u.data) (queryOf u.data) = u.data) →
      normalize_url (u ++ "#" ++ f1) = normalize_url u) ∧
    (¬ u.data.getLast? = some '/' →
      normalize_url (u ++ "/") = normalize_url u) := by
  have hdat : ∀ g : String,
      (u ++ "#" ++ g).data = u.data ++ '#' :: g.data := by
    intro g
    simp [String.data_append]
  have hguard : ∀ g : String, '#' ∈ (u ++ "#" ++ g).data := by
    intro g
    rw [hdat g]
    simp
  have htr : ∀ g : String, truncAtHash ((u ++ "#" ++ g).data) =
      truncAtHash u.data := by
    intro g
    rw [hdat g]
    exact truncAtHash_append_hash u.data g.data
  refine ⟨?_, ?_, ?_⟩
  · have hde := urldefrag_eq_of_trunc_eq (hguard f1) (hguard f2)
      ((htr f1).trans (htr f2).symm)
    show String.mk (stripSlashChars (urldefragChars (u ++ "#" ++ f1).data)) =
      String.mk (stripSlashChars (urldefragChars (u ++ "#" ++ f2).data))
    rw [hde]
  · rintro ⟨hnh, hR⟩
    obtain ⟨h1, h2, h3, h4⟩ := comps_eq_of_trunc_eq (htr f1)
    have hdf : urldefragChars ((u ++ "#" ++ f1).data) = u.data := by
      unfold urldefragChars
      rw [if_pos (hguard f1), h1, h2, h3, h4, hR]
    have hL : normalize_url (u ++ "#" ++ f1) =
        String.mk (stripSlashChars u.data) := by
      show String.mk (stripSlashChars (urldefragChars (u ++ "#" ++ f1).data))
        = String.mk (stripSlashChars u.data)
      rw [hdf]
    have hRn : normalize_url u = String.mk (stripSlashChars u.data) := by
      show String.mk (stripSlashChars (urldefragChars u.data)) =
        String.mk (stripSlashChars u.data)
      rw [urldefrag_no_hash hnh]
    rw [hL, hRn]
  · intro hend
    have hdat2 : (u ++ "/").data = u.data ++ ['/'] := by
      simp [String.data_append]
    by_cases hin : '#' ∈ u.data
    · have hg2 : '#' ∈ (u ++ "/").data := by
        rw [hdat2]
        exact List.mem_append_left _ hin
      have htr2 : truncAtHash ((u ++ "/").data) = truncAtHash u.data := by
        rw [hdat2]
        exact truncAtHash_append_of_hash u.data ['/'] hin
      have hde := urldefrag_eq_of_trunc_eq hg2 hin htr2
      show String.mk (stripSlashChars (urldefragChars (u ++ "/").data)) =
        String.mk (stripSlashChars (urldefragChars u.data))
      rw [hde]
    · have hg2 : '#' ∉ (u ++ "/").data := by
        rw [hdat2]
        intro hmem
        rcases List.mem_append.mp hmem with h1 | h1
        · exact hin h1
        · simp at h1
      have hL : normalize_url (u ++ "/") = String.mk u.data := by
        show String.mk (stripSlashChars (urldefragChars (u ++ "/").data)) =
          String.mk u.data
        rw [urldefrag_no_hash hg2, hdat2, stripSlash_concat]
      have hRn : normalize_url u = String.mk u.data := by
        show String.mk (stripSlashChars (urldefragChars u.data)) =
          String.mk u.data
        rw [urldefrag_no_hash hin, stripSlash_of_ne u.data hend]
      rw [hL, hRn]

/-- Witness for the amended C9 at a lower-case, round-trip-invariant URL
not ending in '/'. -/
theorem c9_amended_witness :
    urlOk ("http://a.com/x").data ∧
    ¬ ("http://a.com/x").data.getLast? = some '/' ∧
    normalize_url ("http://a.com/x" ++ "#" ++ "frag") =
      normalize_url ("http://a.com/x" ++ "#" ++ "other") ∧
    normalize_url ("http://a.com/x" ++ "#" ++ "frag") =
      normalize_url "http://a.com/x" ∧
    normalize_url ("http://a.com/x" ++ "/") =
      normalize_url "http://a.com/x" := by
  have h := c9_normalize_congruence_amended "http://a.com/x" "frag" "other"
    (by decide)
  exact ⟨by decide, by decide, h.1, h.2.1 ⟨by decide, by decide⟩,
    h.2.2 (by decide)⟩

/-- Claim C5, counterexample: normalization alters more than the
fragment and a trailing path separator.  The trailing '/' of the raw
string is stripped inside a nonempty query ("http://a.com/x?q=a/" has
query "q=a/", its normalization has query "q=a"); and when a fragment is
present, the urlsplit/urlunsplit round-trip lower-cases the scheme
("HTTP://a.com/x#f" becomes "http://a.com/x") and drops the '?' of an
empty query ("http://a.com/x?#f" becomes "http://a.com/x"). -/
theorem c5_counterexample :
    normalize_url "http://a.com/x?q=a/" = "http://a.com/x?q=a" ∧
    queryOf ("http://a.com/x?q=a/").data = "q=a/".data ∧
    queryOf ((normalize_url "http://a.com/x?q=a/").data) = "q=a".data ∧
    normalize_url "HTTP://a.com/x#f" = "http://a.com/x" ∧
    normalize_url "http://a.com/x?#f" = "http://a.com/x" :=
  ⟨by decide, by decide, by decide, by decide, by decide⟩

/-- Claim C5 (amended): on every URL u where CPython's urlsplit performs
no pre-parse rewrite and raises no exception (`urlOk`) and whose
defragged form does not have post-scheme text exactly "//": normalize
first defrags u — the identity when u has no fragment, otherwise the
urlsplit/urlunsplit reassembly, which lower-cases the scheme and drops
an empty query's '?' — and then strips at most one trailing '/' of the
raw string.  Relative to the defragged URL the scheme and the host (with
its casing) are unchanged, the result has no fragment, and exactly one
of: nothing else changes, the (nonempty) query loses one trailing '/',
or the path loses one trailing '/'. -/
theorem c5_normalize_components_amended (u : String) (_hok : urlOk u.data)
    (hdeg : afterScheme (urldefragChars u.data) ≠ ['/', '/']) :
    schemeOf ((normalize_url u).data) = schemeOf (urldefragChars u.data) ∧
    netlocOf ((normalize_url u).data) = netlocOf (urldefragChars u.data) ∧
    fragPartOf ((normalize_url u).data) = [] ∧
    ((normalize_url u).data = urldefragChars u.data ∨
      urldefragChars u.data = (normalize_url u).data ++ ['/']) ∧
    ((pathOf ((normalize_url u).data) = pathOf (urldefragChars u.data) ∧
      queryOf ((normalize_url u).data) = queryOf (urldefragChars u.data)) ∨
     (pathOf ((normalize_url u).data) = pathOf (urldefragChars u.data) ∧
      queryOf (urldefragChars u.data) =
        queryOf ((normalize_url u).data) ++ ['/']) ∨
     (queryOf ((normalize_url u).data) = queryOf (urldefragChars u.data) ∧
      pathOf (urldefragChars u.data) =
        pathOf ((normalize_url u).data) ++ ['/'])) ∧
    ('#' ∉ u.data → urldefragChars u.data = u.data) := by
  have hdata : (normalize_url u).data =
      stripSlashChars (urldefragChars u.data) := rfl
  have hAllHash : ∀ c ∈ urldefragChars u.data, notHash c = true :=
    urldefrag_all_notHash u.data
  by_cases hl : (urldefragChars u.data).getLast? = some '/'
  · rcases List.eq_nil_or_concat (urldefragChars u.data) with
      hnil | ⟨t, a, hta⟩
    · rw [hnil] at hl; simp at hl
    · rw [List.concat_eq_append] at hta
      have ha : a = '/' := by
        rw [hta, List.getLast?_concat] at hl
        exact Option.some.inj hl
      subst ha
      have hn : (normalize_url u).data = t := by
        rw [hdata, hta, stripSlash_concat]
      have hAllT : ∀ c ∈ t, notHash c = true :=
        fun c hc => hAllHash c (hta ▸ List.mem_append_left _ hc)
      have hASd : afterScheme (urldefragChars u.data) =
          afterScheme t ++ ['/'] := by
        rw [hta]
        simp only [afterScheme, splitScheme_concat_slash t]
      have hdeg2 : afterScheme t ≠ ['/'] := by
        intro h0
        apply hdeg
        rw [hASd, h0]
        rfl
      have hsch : schemeOf ((normalize_url u).data) =
          schemeOf (urldefragChars u.data) := by
        rw [hn, hta]
        simp only [schemeOf, splitScheme_concat_slash t]
      obtain ⟨hnl, hanl⟩ := netloc_concat_slash t hdeg2
      have hnet : netlocOf ((normalize_url u).data) =
          netlocOf (urldefragChars u.data) := by
        rw [hn, hta, hnl]
      have hRt : restNoFrag t = afterNetloc t :=
        restNoFrag_eq_afterNetloc hAllT
      have hAllR : ∀ c ∈ afterNetloc t ++ ['/'], notHash c = true := by
        intro c hc
        rcases List.mem_append.mp hc with h1 | h1
        · exact hAllT c (afterNetloc_subset t c h1)
        · simp at h1
          rw [h1]
          decide
      have hRd : restNoFrag (urldefragChars u.data) =
          afterNetloc t ++ ['/'] := by
        unfold restNoFrag
        rw [hta, hanl]
        exact List.takeWhile_eq_self_iff.mpr hAllR
      have hP1 : pathOf (urldefragChars u.data) =
          (afterNetloc t ++ ['/']).takeWhile notQmark := by
        unfold pathOf
        rw [hRd]
      have hQ1 : queryOf (urldefragChars u.data) =
          (afterNetloc t ++ ['/']).drop
            (((afterNetloc t ++ ['/']).takeWhile notQmark).length + 1) := by
        unfold queryOf pathOf
        rw [hRd]
      have hP2 : pathOf ((normalize_url u).data) =
          (afterNetloc t).takeWhile notQmark := by
        rw [hn]
        unfold pathOf
        rw [hRt]
      have hQ2 : queryOf ((normalize_url u).data) = (afterNetloc t).drop
          (((afterNetloc t).takeWhile notQmark).length + 1) := by
        rw [hn]
        unfold queryOf pathOf
        rw [hRt]
      refine ⟨hsch, hnet, by rw [hn]; exact fragPart_eq_nil hAllT,
        Or.inr (by rw [hn, hta]), ?_,
        fun hnh => urldefrag_no_hash hnh⟩
      by_cases hq : '?' ∈ afterNetloc t
      · have hTW : (afterNetloc t ++ ['/']).takeWhile notQmark =
            (afterNetloc t).takeWhile notQmark :=
          takeWhile_append_of_mem ['/'] '?' hq (by decide)
        have hlenq : ((afterNetloc t).takeWhile notQmark).length <
            (afterNetloc t).length :=
          takeWhile_length_lt_of_mem '?' hq (by decide)
        have hdropq : (afterNetloc t ++ ['/']).drop
            (((afterNetloc t).takeWhile notQmark).length + 1) =
            (afterNetloc t).drop
              (((afterNetloc t).takeWhile notQmark).length + 1) ++ ['/'] :=
          List.drop_append_of_le_length (by omega)
        refine Or.inr (Or.inl ⟨?_, ?_⟩)
        · rw [hP1, hP2, hTW]
        · rw [hQ1, hQ2, hTW, hdropq]
      · have hallq : ∀ c ∈ afterNetloc t, notQmark c = true := by
          intro c hc
          simp only [notQmark, bne_iff_ne, ne_eq]
          intro he
          rw [he] at hc
          exact hq hc
        have hTW2 : (afterNetloc t).takeWhile notQmark = afterNetloc t :=
          List.takeWhile_eq_self_iff.mpr hallq
        have hTW3 : (afterNetloc t ++ ['/']).takeWhile notQmark =
            afterNetloc t ++ ['/'] := by
          apply List.takeWhile_eq_self_iff.mpr
          intro c hc
          rcases List.mem_append.mp hc with h1 | h1
          · exact hallq c h1
          · simp at h1
            rw [h1]
            decide
        refine Or.inr (Or.inr ⟨?_, ?_⟩)
        · rw [hQ1, hQ2, hTW2, hTW3]
          rw [List.drop_eq_nil_of_le (by simp), List.drop_eq_nil_of_le
            (by simp [List.length_append])]
        · rw [hP1, hP2, hTW2, hTW3]
  · have hn : (normalize_url u).data = urldefragChars u.data := by
      rw [hdata, stripSlash_of_ne _ hl]
    rw [hn]
    exact ⟨rfl, rfl, fragPart_eq_nil hAllHash, Or.inl rfl,
      Or.inl ⟨rfl, rfl⟩, fun hnh => urldefrag_no_hash hnh⟩

/-- Witness for the amended C5 at a URL with host, path, trailing slash,
query and fragment. -/
theorem c5_amended_witness :
    urlOk ("http://a.com/p/?q=1#sec").data ∧
    afterScheme (urldefragChars ("http://a.com/p/?q=1#sec").data) ≠
      ['/', '/'] ∧
    schemeOf ((normalize_url "http://a.com/p/?q=1#sec").data) =
      schemeOf (urldefragChars ("http://a.com/p/?q=1#sec").data) ∧
    netlocOf ((normalize_url "http://a.com/p/?q=1#sec").data) =
      netlocOf (urldefragChars ("http://a.com/p/?q=1#sec").data) ∧
    fragPartOf ((normalize_url "http://a.com/p/?q=1#sec").data) = [] := by
  have h := c5_normalize_components_amended "http://a.com/p/?q=1#sec"
    (by decide) (by decide)
  exact ⟨by decide, by decide, h.1, h.2.1, h.2.2.1⟩

end SitemapGen
